import Mathlib

/-!
Shallow embedding of the reactive decision engine of the sketchy-bot-framework
repository: the reconciliation merge (`src/core.py`), the strategy orchestration
(`src/core.py`), bet validation (`src/models/proposed_bet.py`), the qualifier
chain (`src/strategies/base_strategy.py`), and the cached/retrying HTTP layer
plus websocket reconnection (`src/manifold_client.py`).

Python floats are embedded as rationals, Python dicts as association lists, and
object identity (relevant for the deep-copy behaviour of the request cache) as
an explicit object-id tag drawn from a fresh counter.
-/

deriving instance DecidableEq for Except

namespace SketchyBot

/-! ### Data model: ProposedBet and StrategyResult

Embeds `src/models/proposed_bet.py` (dataclass fields) and
`src/strategies/strategy_result.py`.  `extra_data` is a Python dict of
diagnostic data; it is embedded as an association list.  `source_strategy` is
`Optional[str]` in the source but is always set by `evaluate_and_propose`
before reconciliation sees it, so it is embedded as `String`. -/

structure ProposedBet where
  amount : Int
  outcome : String
  contract_id : String
  limit_prob : ℚ
  user_id : String := ""
  answer_id : Option String := none
  source_strategy : String := ""
  extra_data : List (String × String) := []
deriving Repr, DecidableEq, Inhabited

/-- Embeds `StrategyResult` (`src/strategies/strategy_result.py`): exactly one
of `bets` or `event` should be provided.  The log event payload is opaque to
the orchestrator and is embedded as a `String`. -/
structure StrategyResult where
  bets : Option (List ProposedBet) := none
  event : Option String := none
  strategy : Option String := none
deriving Repr, DecidableEq, Inhabited

/-! ### Reconciliation merge (`Core.combine_strat_results`, src/core.py:131-155)

The Python code iterates over every proposed bet of every result, keeping an
accumulator list `bets`; for each incoming bet it collects the accumulated bets
with the same `(contract_id, answer_id, outcome)` triple, appends when there is
no match, merges in place when there is exactly one match, and raises when
there are two or more matches.  The in-place mutation of the single matching
element is embedded as mapping the merge over the matching position. -/

/-- The grouping triple used by the reconciliation merge. -/
def keyOf (b : ProposedBet) : String × Option String × String :=
  (b.contract_id, b.answer_id, b.outcome)

/-- The matching test of `combine_strat_results`:
`b.contract_id == contract_id and b.answer_id == answer_id and b.outcome == outcome`. -/
def sameTriple (a b : ProposedBet) : Bool :=
  a.contract_id == b.contract_id && a.answer_id == b.answer_id && a.outcome == b.outcome

/-- Python `dict.update`: keys already present keep their position and take the
new value; new keys are appended in order. -/
def updateData (old new : List (String × String)) : List (String × String) :=
  old.map (fun p =>
    match new.find? (fun q => q.1 == p.1) with
    | some q => (p.1, q.2)
    | none => p) ++
  new.filter (fun q => !(old.any (fun p => p.1 == q.1)))

/-- One in-place merge step of `combine_strat_results` (src/core.py:144-151):
`finalized_bet.amount = max(bet.amount, finalized_bet.amount)`, the limit
probability takes the max for a "YES" outcome and the min otherwise, the
source strategies concatenate with a comma, and `extra_data` is updated. -/
def mergeBet (fin b : ProposedBet) : ProposedBet :=
  { fin with
    amount := max b.amount fin.amount
    limit_prob :=
      if fin.outcome == "YES" then max b.limit_prob fin.limit_prob
      else min b.limit_prob fin.limit_prob
    source_strategy := fin.source_strategy ++ "," ++ b.source_strategy
    extra_data := updateData fin.extra_data b.extra_data }

/-- The body of the nested loop of `combine_strat_results` for one incoming
bet: append on no match, merge on exactly one match, raise otherwise. -/
def insertBet (bets : List ProposedBet) (b : ProposedBet) :
    Except String (List ProposedBet) :=
  let matching := bets.filter (fun a => sameTriple a b)
  if matching.length == 0 then
    .ok (bets ++ [b])
  else if matching.length == 1 then
    .ok (bets.map (fun a => if sameTriple a b then mergeBet a b else a))
  else
    .error "Invariant broken, more than one finalized bet with same contract/answer id!"

/-- All proposed bets of a list of strategy results, in iteration order of the
nested loop `for result in results: for bet in result.bets`. -/
def allBets (results : List StrategyResult) : List ProposedBet :=
  results.flatMap (fun r => r.bets.getD [])

/-- Embeds `Core.combine_strat_results` (src/core.py:131-155).  The nested
iteration over results and their bets is the left fold of `insertBet` over the
flattened bet list; the raised `Exception` is the `.error` case. -/
def combine_strat_results (results : List StrategyResult) :
    Except String StrategyResult :=
  ((allBets results).foldlM insertBet []).map
    (fun bets => { bets := some bets, event := none, strategy := none })

/-! ### Specification-side description of the merge: groups by triple -/

/-- Append a key if it is not already present (first-occurrence order). -/
def addKey (ks : List (String × Option String × String))
    (k : String × Option String × String) :
    List (String × Option String × String) :=
  if k ∈ ks then ks else ks ++ [k]

/-- The distinct triples of a bet list, in order of first occurrence. -/
def firstKeys (all : List ProposedBet) : List (String × Option String × String) :=
  all.foldl (fun ks b => addKey ks (keyOf b)) []

/-- The group of proposals sharing a triple, in proposal order. -/
def groupOf (all : List ProposedBet) (k : String × Option String × String) :
    List ProposedBet :=
  all.filter (fun b => keyOf b = k)

/-- Fold the merge step over a group: the first proposal is kept and every
later proposal of the group is merged into it. -/
def mergeGroup (h : ProposedBet) (t : List ProposedBet) : ProposedBet :=
  t.foldl mergeBet h

/-- Total version of `mergeGroup` on a whole (nonempty) group list. -/
def mergeGroupList : List ProposedBet → ProposedBet
  | [] => default
  | h :: t => mergeGroup h t

/-- The merged action set, described group-by-group: one merged action per
distinct triple, in first-occurrence order. -/
def groupsOf (all : List ProposedBet) : List ProposedBet :=
  (firstKeys all).map (fun k => mergeGroupList (groupOf all k))

/-- Comma-joined provenance of a group, as the spec describes concatenation. -/
def joinSources : List ProposedBet → String
  | [] => ""
  | [b] => b.source_strategy
  | b :: rest => b.source_strategy ++ "," ++ joinSources rest

/-! ### Strategy orchestration (`Core.get_proposed_response_result`,
src/core.py:104-129, and `Core.on_bet`, src/core.py:35-48)

Each strategy evaluation is a task that either produces a `StrategyResult` or
raises; an evaluation is embedded as `Except String StrategyResult`.  The
batched `await asyncio.gather(*tasks)` is called without
`return_exceptions=True`, so the first raised exception propagates to the
awaiter and the gathered results are discarded; the embedding resolves the
nondeterministic completion order to list order. -/

/-- Deterministic embedding of `asyncio.gather` without `return_exceptions`:
either every task's result, or the first error. -/
def gatherResults : List (Except String StrategyResult) →
    Except String (List StrategyResult)
  | [] => .ok []
  | .error e :: _ => .error e
  | .ok r :: rest =>
    match gatherResults rest with
    | .error e => .error e
    | .ok rs => .ok (r :: rs)

/-- Embeds `Core.get_proposed_response_result` (src/core.py:104-129): gather
all strategy evaluations, skip results carrying a log event, keep results with
a nonempty bet list, and return nothing, the single result, or the merge. -/
def get_proposed_response_result
    (outcomes : List (Except String StrategyResult)) :
    Except String (Option StrategyResult) :=
  match gatherResults outcomes with
  | .error e => .error e
  | .ok results =>
    let bet_results := results.filter
      (fun r => r.event.isNone && !(r.bets.getD []).isEmpty)
    match bet_results with
    | [] => .ok none
    | [r] => .ok (some r)
    | _ => (combine_strat_results bet_results).map some

/-- Embeds the `try`/`except` of `Core.on_bet` (src/core.py:35-48): a raised
exception is caught, logged as an `ErrorEvent` (second component) and the
reaction for the triggering event ends; nothing propagates to the listen
loop. -/
def on_bet (impl : Except String (Option StrategyResult)) :
    Option (Option StrategyResult) × Option String :=
  match impl with
  | .ok v => (some v, none)
  | .error e => (none, some e)

/-! ### Bet submission magnitudes (`Core.on_bet_impl`, src/core.py:50-102)

For each bet of the merged result the core computes
`amount = max(proposed_bet.amount, 1)`, skips the bet when the market is
MULTIPLE_CHOICE and the proposal has no answer id (Python truthiness: `None` or
the empty string), and otherwise places an order of that magnitude. -/

/-- The skip guard of the submission loop:
`mkt.outcome_type == "MULTIPLE_CHOICE" and not proposed_bet.answer_id`. -/
def skipsSubmission (outcome_type : String) (b : ProposedBet) : Bool :=
  outcome_type == "MULTIPLE_CHOICE" && (b.answer_id.getD "").isEmpty

/-- The orders placed by the submission loop of `on_bet_impl`: each surviving
proposal paired with the magnitude handed to `place_bet`. -/
def submittedBets (outcome_type : String) (pbets : List ProposedBet) :
    List (ProposedBet × Int) :=
  pbets.filterMap (fun b =>
    if skipsSubmission outcome_type b then none
    else some (b, max b.amount 1))

/-! ### Bet validation (`ProposedBet.validate`, src/models/proposed_bet.py:19-35)

Python floats are embedded as rationals.  `round(x, 2)` is Python's
round-half-to-even at two decimals; it is embedded exactly (ties of
`100 * p` go to the even integer).  The `isinstance(amount, int)` check is
discharged by the `Int` type of the embedding.  `MAX_BET_SIZE` comes from
`config/bet_config.py` and is a parameter here. -/

/-- Round to the nearest integer, ties to even (Python's `round`). -/
def roundEven (x : ℚ) : ℤ :=
  let f := ⌊x⌋
  let r := x - f
  if r < 1 / 2 then f
  else if 1 / 2 < r then f + 1
  else if f % 2 = 0 then f else f + 1

/-- Python's `round(p, 2)`. -/
def round2 (p : ℚ) : ℚ := (roundEven (100 * p) : ℚ) / 100

/-- Embeds `ProposedBet.validate`: clamp the amount to `MAX_BET_SIZE`, require
a limit probability, require `0.01 <= limit_prob <= 0.99`, and require at most
two decimals.  Returns the validated `(amount, limit_prob)` pair; a raised
`ValueError` is the `.error` case. -/
def validate (MAX_BET_SIZE : Int) (amount : Int) (limit_prob : Option ℚ) :
    Except String (Int × ℚ) :=
  let amount := if MAX_BET_SIZE < amount then MAX_BET_SIZE else amount
  match limit_prob with
  | none => .error "limit_prob required"
  | some p =>
    if ¬(1 / 100 ≤ p ∧ p ≤ 99 / 100) then
      .error "limit_prob must be between 0.01 and 0.99"
    else if round2 p ≠ p then
      .error "limit_prob must have at most two decimals"
    else
      .ok (amount, p)

/-! ### Qualifier chain (`BaseTradingStrategy._run_qualifiers`,
src/strategies/base_strategy.py:66-90)

A qualifier produces a `QualificationResult` whose `decision` field has the
Python type `Literal["PASS", "FAIL"]`; a qualifier itself is embedded as a
function from an abstract evaluation input to its result.  The chain is the
base qualifiers followed by the strategy-specific ones; `_run_qualifiers`
returns the result of the first failing qualifier, or `None` when all pass. -/

inductive Decision
  | PASS
  | FAIL
deriving Repr, DecidableEq

structure QualificationResult where
  decision : Decision
  reason : String
  details : String := ""
deriving Repr, DecidableEq

/-- The full chain: cross-strategy base qualifiers followed by the
strategy-specific ones (`self.base_qualifiers + self.qualifiers`). -/
def fullChain {ι : Type} (base strat : List (ι → QualificationResult)) :
    List (ι → QualificationResult) :=
  base ++ strat

/-- Embeds the loop of `_run_qualifiers`: evaluate each qualifier in order and
return the first result whose decision is FAIL, or `none` when every
qualifier passes. -/
def run_qualifiers {ι : Type} (chain : List (ι → QualificationResult)) (x : ι) :
    Option QualificationResult :=
  match chain with
  | [] => none
  | q :: rest =>
    if (q x).decision = .FAIL then some (q x)
    else run_qualifiers rest x

/-! ### The cached, retrying request layer
(`ManifoldClient._make_request`, src/manifold_client.py:110-158, and
`ManifoldClient._cleanup_cache`, src/manifold_client.py:77-89)

The embedding makes explicit what a Python trace leaves implicit:

* JSON payloads are abstracted to `Nat` data carried inside an `Obj` that also
  records a Python object identity (`oid`); a fresh `oid` is drawn from a
  counter for every new response object and for every `deepcopy`.  Two `Obj`s
  alias exactly when their `oid`s coincide.
* `time.time()` is the `now` field of the state; `asyncio.sleep(d)` advances it
  by `d`.  Within one call no other time passes.
* the network is an oracle `attempts : Nat → AttemptOutcome` indexed by the
  total number of network requests issued so far (`calls`), covering a 2xx
  response, a response with status >= 400 (raised as a plain `Exception`,
  which `except ClientError` does not catch), and an `aiohttp.ClientError`.
* the cache dict keyed by `f"{endpoint}:{key_data}"` is an association list
  keyed by the `(endpoint, key_data)` pair; endpoints contain no colon, so the
  `split(':', 1)[0]` of `_cleanup_cache` recovers exactly the endpoint.
  `key_data` stands for the canonical `json.dumps(params, sort_keys=True)`.
-/

inductive AttemptOutcome
  | success (data : Nat)
  | apiError (status : Nat) (text : String)
  | clientError (msg : String)
deriving Repr, DecidableEq

inductive ReqError
  | api (status : Nat) (text : String)
  | exhausted (tries : Nat) (msg : String)
deriving Repr, DecidableEq

/-- A Python object: abstract payload plus object identity. -/
structure Obj where
  data : Nat
  oid : Nat
deriving Repr, DecidableEq

structure CacheEntry where
  endpoint : String
  key_data : String
  ts : Int
  value : Obj
deriving Repr, DecidableEq

/-- The client state relevant to `_make_request`: the clock, the HTTP cache,
the count of network requests issued so far, the fresh object-id counter, the
TTL configuration, and the network oracle. -/
structure ClientState where
  now : Int
  cache : List CacheEntry
  calls : Nat
  freshOid : Nat
  cache_ttl : Int
  cache_ttl_overrides : List (String × Int)
  attempts : Nat → AttemptOutcome

/-- Retry configuration of `ManifoldClient.__init__`. -/
def max_retries : Nat := 3

/-- Fixed delay between retries, in seconds. -/
def retry_delay : Int := 2

/-- The effective TTL for an endpoint:
`self.cache_ttl_overrides.get(endpoint, self.cache_ttl)`. -/
def effTtl (s : ClientState) (endpoint : String) : Int :=
  match s.cache_ttl_overrides.lookup endpoint with
  | some t => t
  | none => s.cache_ttl

/-- Embeds `ManifoldClient._cleanup_cache` (src/manifold_client.py:77-89):
unless caching is disabled entirely, delete every entry whose effective TTL is
nonpositive or has elapsed. -/
def cleanup_cache (s : ClientState) : ClientState :=
  if s.cache_ttl ≤ 0 ∧ s.cache_ttl_overrides = [] then s
  else
    { s with cache := s.cache.filter (fun e =>
        let ttl := effTtl s e.endpoint
        !(decide (ttl ≤ 0) || decide (s.now - e.ts ≥ ttl))) }

/-- Lookup of `self._cache.get(cache_key)`. -/
def findEntry (cache : List CacheEntry) (endpoint key_data : String) :
    Option CacheEntry :=
  cache.find? (fun e => e.endpoint == endpoint && e.key_data == key_data)

/-- Deletion `del self._cache[cache_key]`. -/
def removeEntry (cache : List CacheEntry) (endpoint key_data : String) :
    List CacheEntry :=
  cache.filter (fun e => !(e.endpoint == endpoint && e.key_data == key_data))

/-- The retry loop `for attempt in range(self.max_retries)` of
`_make_request`, with `fuel` the number of attempts still available (the first
call passes `max_retries`; the base case 0 is unreachable for a positive
retry bound).  A 2xx response is a fresh object that is stored in the cache
(when `is_get` and the TTL is positive and a cache key was computed) and
returned as the very same object; a status >= 400 raises immediately; an
`aiohttp.ClientError` on the last attempt raises the exhaustion error, and
otherwise sleeps `retry_delay` and retries. -/
def attemptLoop (endpoint key_data : String) (is_get : Bool) (ttl : Int)
    (has_cache_key : Bool) :
    Nat → ClientState → Except ReqError Obj × ClientState
  | 0, s => (.error (.exhausted max_retries "retry loop exhausted"), s)
  | fuel + 1, s =>
    match s.attempts s.calls with
    | .success d =>
      let obj : Obj := ⟨d, s.freshOid⟩
      let s := { s with calls := s.calls + 1, freshOid := s.freshOid + 1 }
      let s :=
        if is_get && has_cache_key && decide (ttl > 0) then
          { s with cache :=
              removeEntry s.cache endpoint key_data ++ [⟨endpoint, key_data, s.now, obj⟩] }
        else s
      (.ok obj, s)
    | .apiError st tx =>
      (.error (.api st tx), { s with calls := s.calls + 1 })
    | .clientError msg =>
      let s := { s with calls := s.calls + 1 }
      if fuel = 0 then (.error (.exhausted max_retries msg), s)
      else attemptLoop endpoint key_data is_get ttl has_cache_key fuel
        { s with now := s.now + retry_delay }

/-- Embeds `ManifoldClient._make_request` (src/manifold_client.py:110-158).
For a GET on an endpoint with positive effective TTL the cache is swept, a
sufficiently young hit is returned as a `deepcopy` (same data, fresh object
id), a stale hit is deleted, and on a miss the live request runs and its
response is cached.  Every other request goes straight to the retry loop with
no cache key. -/
def make_request (endpoint : String) (params : Option String) (is_get : Bool)
    (s : ClientState) : Except ReqError Obj × ClientState :=
  let ttl := effTtl s endpoint
  let key_data := params.getD ""
  if is_get ∧ ttl > 0 then
    let s := cleanup_cache s
    match findEntry s.cache endpoint key_data with
    | some e =>
      if s.now - e.ts < ttl then
        (.ok ⟨e.value.data, s.freshOid⟩, { s with freshOid := s.freshOid + 1 })
      else
        attemptLoop endpoint key_data is_get ttl true max_retries
          { s with cache := removeEntry s.cache endpoint key_data }
    | none => attemptLoop endpoint key_data is_get ttl true max_retries s
  else
    attemptLoop endpoint key_data is_get ttl false max_retries s

/-! ### Websocket reconnection (`ManifoldClient._reconnect`,
src/manifold_client.py:522-566)

The loop `while current_attempt < self.max_reconnect_attempts and not
self.connected` increments the attempt counter, sleeps
`min(self.reconnect_delay * 2 ** (current_attempt - 1),
self.max_reconnect_delay)` and then tries `connect`; a raised connect error is
caught and the loop continues.  After the loop, failure to connect logs a
fatal `ErrorEvent` that reconnection is exhausted.  Whether attempt `k`
succeeds is an oracle `succeeds k`. -/

def max_reconnect_attempts : Nat := 10

/-- Initial reconnect delay in seconds. -/
def reconnect_delay : Int := 5

/-- Maximum delay between reconnect attempts, in seconds. -/
def max_reconnect_delay : Int := 600

structure ReconnectOutcome where
  delays : List Int
  connected : Bool
  fatalReported : Bool
deriving Repr, DecidableEq

/-- The reconnect loop: `k` attempts have already been made, `fuel` attempts
remain; returns the observed sleep delays in order together with whether a
connection was established. -/
def reconnectLoop (succeeds : Nat → Bool) (base maxD : Int) :
    Nat → Nat → List Int × Bool
  | _, 0 => ([], false)
  | k, fuel + 1 =>
    let delay := min (base * 2 ^ k) maxD
    if succeeds (k + 1) then ([delay], true)
    else
      let rest := reconnectLoop succeeds base maxD (k + 1) fuel
      (delay :: rest.1, rest.2)

/-- Embeds `ManifoldClient._reconnect`: run the backoff loop from the first
attempt; the fatal reconnect-exhausted `ErrorEvent` is logged exactly when the
loop ends without a connection. -/
def reconnect (succeeds : Nat → Bool) (base maxD : Int) (cap : Nat) :
    ReconnectOutcome :=
  let r := reconnectLoop succeeds base maxD 0 cap
  { delays := r.1, connected := r.2, fatalReported := !r.2 }

/-! ### Properties the merged actions satisfy, group by group

The specification-side property of one merged action `b`: its group (the
proposals sharing its triple) is nonempty, `b` is the fold of the merge over
that group, a singleton group passes through unchanged, the magnitude is the
maximum of the group, the limit probability is the maximum of the group for a
"YES" outcome and the minimum otherwise, and the provenance is the
comma-joined concatenation of the group's provenance fields. -/
def MergedGroupSpec (all : List ProposedBet) (b : ProposedBet) : Prop :=
  groupOf all (keyOf b) ≠ [] ∧
  b = mergeGroupList (groupOf all (keyOf b)) ∧
  (∀ x, groupOf all (keyOf b) = [x] → b = x) ∧
  (b.amount ∈ (groupOf all (keyOf b)).map (fun x => x.amount) ∧
    ∀ x ∈ groupOf all (keyOf b), x.amount ≤ b.amount) ∧
  (b.outcome = "YES" →
    b.limit_prob ∈ (groupOf all (keyOf b)).map (fun x => x.limit_prob) ∧
    ∀ x ∈ groupOf all (keyOf b), x.limit_prob ≤ b.limit_prob) ∧
  (b.outcome ≠ "YES" →
    b.limit_prob ∈ (groupOf all (keyOf b)).map (fun x => x.limit_prob) ∧
    ∀ x ∈ groupOf all (keyOf b), b.limit_prob ≤ x.limit_prob) ∧
  b.source_strategy = joinSources (groupOf all (keyOf b))

/-! ### Concrete inputs used by witnesses and counterexamples

Rational literals are written through the raw constructor `Rat.mk'` (so 11/20
is 0.55) to keep them kernel-computable. -/

/-- A proposed YES bet on market m1 with the given amount, limit and source. -/
def demoBet (a : Int) (lp : ℚ) (src : String) : ProposedBet :=
  { amount := a, outcome := "YES", contract_id := "m1", limit_prob := lp,
    source_strategy := src }

/-- Three strategies proposing on the same (contract, answer, outcome) triple,
with limits 0.55, 0.60 and 0.50. -/
def demoResults : List StrategyResult :=
  [ { bets := some [demoBet 10 (Rat.mk' 11 20) "S1"] },
    { bets := some [demoBet 20 (Rat.mk' 3 5) "S2"] },
    { bets := some [demoBet 5 (Rat.mk' 1 2) "S3"] } ]

/-- The single action the merge produces for `demoResults`: the maximal
magnitude 20, the maximal limit 0.60, and the concatenated provenance. -/
def demoMerged : ProposedBet :=
  { amount := 20, outcome := "YES", contract_id := "m1", limit_prob := Rat.mk' 3 5,
    source_strategy := "S1,S2,S3" }

/-- A client state with an empty cache, a default TTL of 10 seconds and a
network that answers request number `n` with payload `40 + n`. -/
def demoState : ClientState :=
  { now := 0, cache := [], calls := 0, freshOid := 0, cache_ttl := 10,
    cache_ttl_overrides := [], attempts := fun n => .success (40 + n) }

/-- One strategy evaluation that proposed a bet next to one that raised. -/
def demoOutcomes : List (Except String StrategyResult) :=
  [ .ok { bets := some [demoBet 10 (Rat.mk' 11 20) "S1"] },
    .error "strategy crashed" ]

/-- The cached-read behaviour claimed for a GET endpoint, for a first read
from state `s`, a second identical read `dlt` seconds later and an
alternative second read `dlt2` seconds later: the first read issues one
network request and returns the response `d`; a second read within TTL
returns data equal to `d` without a network request and as an independent
copy (its object id differs from every cached object's id); a read after the
TTL has elapsed evicts the expired entry and issues exactly one new network
request, leaving only the fresh entry cached. -/
def CacheReadSpec (ep pr : String) (s : ClientState) (d d2 : Nat)
    (dlt dlt2 : Int) : Prop :=
  let r1 := make_request ep (some pr) true s
  let s2 := { r1.2 with now := r1.2.now + dlt }
  let r2 := make_request ep (some pr) true s2
  let s3 := { r1.2 with now := r1.2.now + dlt2 }
  let r3 := make_request ep (some pr) true s3
  (r1.1 = .ok ⟨d, s.freshOid⟩ ∧ r1.2.calls = s.calls + 1) ∧
  (r2.1 = .ok ⟨d, r1.2.freshOid⟩ ∧ r2.2.calls = r1.2.calls ∧
    ∀ e ∈ r2.2.cache, e.value.oid ≠ r1.2.freshOid) ∧
  (r3.1 = .ok ⟨d2, r1.2.freshOid⟩ ∧ r3.2.calls = r1.2.calls + 1 ∧
    r3.2.cache = [⟨ep, pr, r1.2.now + dlt2, ⟨d2, r1.2.freshOid⟩⟩])

/-- A client state whose first network attempt fails at the connection level
and whose second attempt succeeds. -/
def demoWriteState : ClientState :=
  { now := 0, cache := [], calls := 0, freshOid := 0, cache_ttl := 10,
    cache_ttl_overrides := [], attempts := fun n =>
      if n = 0 then .clientError "connection reset" else .success 7 }

/-! ## Lemmas about the reconciliation merge -/

theorem sameTriple_iff {a b : ProposedBet} :
    sameTriple a b = true ↔ keyOf a = keyOf b := by
  simp [sameTriple, keyOf, Prod.ext_iff, and_assoc]

theorem sameTriple_eq (a b : ProposedBet) :
    sameTriple a b = decide (keyOf a = keyOf b) := by
  rw [Bool.eq_iff_iff]
  simp [sameTriple_iff]

theorem keyOf_mergeBet (f b : ProposedBet) : keyOf (mergeBet f b) = keyOf f := rfl

theorem outcome_mergeBet (f b : ProposedBet) : (mergeBet f b).outcome = f.outcome := rfl

theorem mergeGroup_cons (h a : ProposedBet) (t : List ProposedBet) :
    mergeGroup h (a :: t) = mergeGroup (mergeBet h a) t := rfl

theorem keyOf_mergeGroup (t : List ProposedBet) (h : ProposedBet) :
    keyOf (mergeGroup h t) = keyOf h := by
  induction t generalizing h with
  | nil => rfl
  | cons a t ih => simpa [mergeGroup_cons, keyOf_mergeBet] using ih (mergeBet h a)

theorem mergeGroup_append (h b : ProposedBet) (t : List ProposedBet) :
    mergeGroup h (t ++ [b]) = mergeBet (mergeGroup h t) b := by
  simp [mergeGroup, List.foldl_append]

theorem mergeGroupList_cons (h : ProposedBet) (t : List ProposedBet) :
    mergeGroupList (h :: t) = mergeGroup h t := rfl

theorem mem_addKey {ks : List (String × Option String × String)}
    {k k' : String × Option String × String} :
    k' ∈ addKey ks k ↔ k' ∈ ks ∨ k' = k := by
  by_cases h : k ∈ ks
  · simp only [addKey, if_pos h]
    exact ⟨Or.inl, fun c => c.elim id (fun e => e ▸ h)⟩
  · simp [addKey, if_neg h]

theorem nodup_addKey {ks : List (String × Option String × String)}
    {k : String × Option String × String} (h : ks.Nodup) : (addKey ks k).Nodup := by
  by_cases hk : k ∈ ks
  · simpa [addKey, if_pos hk] using h
  · simp only [addKey, if_neg hk]
    exact List.Nodup.append h (List.nodup_singleton k)
      (by simpa [List.disjoint_singleton] using hk)

theorem mem_foldl_addKey (l : List ProposedBet)
    (acc : List (String × Option String × String))
    (k : String × Option String × String) :
    k ∈ l.foldl (fun ks b => addKey ks (keyOf b)) acc ↔
      k ∈ acc ∨ ∃ b ∈ l, keyOf b = k := by
  induction l generalizing acc with
  | nil => simp
  | cons a l ih =>
    rw [List.foldl_cons, ih, mem_addKey]
    constructor
    · rintro (⟨h | h⟩ | ⟨b, hb, hk⟩)
      · exact Or.inl h
      · exact Or.inr ⟨a, List.mem_cons_self a l, h.symm⟩
      · exact Or.inr ⟨b, List.mem_cons_of_mem a hb, hk⟩
    · rintro (h | ⟨b, hb, hk⟩)
      · exact Or.inl (Or.inl h)
      · rcases List.mem_cons.1 hb with rfl | hb'
        · exact Or.inl (Or.inr hk.symm)
        · exact Or.inr ⟨b, hb', hk⟩

theorem nodup_foldl_addKey (l : List ProposedBet)
    (acc : List (String × Option String × String)) (h : acc.Nodup) :
    (l.foldl (fun ks b => addKey ks (keyOf b)) acc).Nodup := by
  induction l generalizing acc with
  | nil => simpa
  | cons a l ih => exact ih _ (nodup_addKey h)

theorem mem_firstKeys {l : List ProposedBet}
    {k : String × Option String × String} :
    k ∈ firstKeys l ↔ ∃ b ∈ l, keyOf b = k := by
  simpa using mem_foldl_addKey l [] k

theorem nodup_firstKeys (l : List ProposedBet) : (firstKeys l).Nodup :=
  nodup_foldl_addKey l [] (List.nodup_nil)

theorem firstKeys_append (l : List ProposedBet) (b : ProposedBet) :
    firstKeys (l ++ [b]) = addKey (firstKeys l) (keyOf b) := by
  simp [firstKeys, List.foldl_append]

theorem keyOf_mem_groupOf {l : List ProposedBet}
    {k : String × Option String × String} {x : ProposedBet}
    (h : x ∈ groupOf l k) : keyOf x = k := by
  have := List.of_mem_filter h
  simpa using this

theorem groupOf_ne_nil {l : List ProposedBet}
    {k : String × Option String × String} (h : k ∈ firstKeys l) :
    groupOf l k ≠ [] := by
  obtain ⟨b, hb, hk⟩ := mem_firstKeys.1 h
  intro hnil
  have : b ∈ groupOf l k := List.mem_filter.2 ⟨hb, by simpa using hk⟩
  simp [hnil] at this

theorem groupOf_eq_nil {l : List ProposedBet}
    {k : String × Option String × String} (h : k ∉ firstKeys l) :
    groupOf l k = [] := by
  rw [groupOf, List.filter_eq_nil_iff]
  intro b hb
  simp only [decide_eq_true_eq]
  intro hk
  exact h (mem_firstKeys.2 ⟨b, hb, hk⟩)

theorem groupOf_append_single (l : List ProposedBet) (b : ProposedBet)
    (k : String × Option String × String) :
    groupOf (l ++ [b]) k = groupOf l k ++ if keyOf b = k then [b] else [] := by
  rw [groupOf, List.filter_append, groupOf]
  congr 1
  by_cases h : keyOf b = k <;> simp [h]

theorem keyOf_mergeGroupList {g : List ProposedBet}
    {k : String × Option String × String} (hne : g ≠ [])
    (hall : ∀ x ∈ g, keyOf x = k) : keyOf (mergeGroupList g) = k := by
  obtain ⟨h, t, rfl⟩ := List.exists_cons_of_ne_nil hne
  rw [mergeGroupList_cons, keyOf_mergeGroup]
  exact hall h (List.mem_cons_self h t)

theorem map_keyOf_groupsOf (l : List ProposedBet) :
    (groupsOf l).map keyOf = firstKeys l := by
  rw [groupsOf, List.map_map]
  conv_rhs => rw [← List.map_id (firstKeys l)]
  apply List.map_congr_left
  intro k hk
  exact keyOf_mergeGroupList (groupOf_ne_nil hk) (fun x hx => keyOf_mem_groupOf hx)

theorem filter_key_singleton {ks : List (String × Option String × String)}
    {k : String × Option String × String} (hnd : ks.Nodup) (hk : k ∈ ks) :
    ks.filter (fun x => decide (x = k)) = [k] := by
  induction ks with
  | nil => cases hk
  | cons a ks ih =>
    rcases List.mem_cons.1 hk with h1 | hk'
    · rw [List.filter_cons_of_pos (by simp [h1])]
      rw [List.filter_eq_nil_iff.2 (fun x hx => by
        simp only [decide_eq_true_eq]
        intro he
        exact (List.nodup_cons.1 hnd).1 (by rw [← h1, ← he]; exact hx))]
      rw [h1]
    · have hne : a ≠ k := by
        intro he
        exact (List.nodup_cons.1 hnd).1 (he ▸ hk')
      rw [List.filter_cons_of_neg (by simpa using hne)]
      exact ih (List.nodup_cons.1 hnd).2 hk'

theorem matching_filter_of_mem {pre : List ProposedBet} {b : ProposedBet}
    (hk : keyOf b ∈ firstKeys pre) :
    (groupsOf pre).filter (fun a => sameTriple a b) =
      [mergeGroupList (groupOf pre (keyOf b))] := by
  rw [groupsOf, List.filter_map]
  have hcongr : (firstKeys pre).filter
      ((fun a => sameTriple a b) ∘ fun k => mergeGroupList (groupOf pre k)) =
      (firstKeys pre).filter (fun k => decide (k = keyOf b)) := by
    apply List.filter_congr
    intro k hkmem
    show sameTriple (mergeGroupList (groupOf pre k)) b = decide (k = keyOf b)
    rw [sameTriple_eq,
      keyOf_mergeGroupList (groupOf_ne_nil hkmem) (fun x hx => keyOf_mem_groupOf hx)]
  rw [hcongr, filter_key_singleton (nodup_firstKeys pre) hk]
  rfl

theorem matching_filter_of_not_mem {pre : List ProposedBet} {b : ProposedBet}
    (hk : keyOf b ∉ firstKeys pre) :
    (groupsOf pre).filter (fun a => sameTriple a b) = [] := by
  rw [List.filter_eq_nil_iff]
  intro a ha
  have hkey : keyOf a ∈ firstKeys pre := by
    rw [← map_keyOf_groupsOf]
    exact List.mem_map_of_mem keyOf ha
  rw [sameTriple_eq]
  simp only [decide_eq_true_eq]
  intro he
  exact hk (he ▸ hkey)

theorem insertBet_groupsOf (pre : List ProposedBet) (b : ProposedBet) :
    insertBet (groupsOf pre) b = .ok (groupsOf (pre ++ [b])) := by
  by_cases hk : keyOf b ∈ firstKeys pre
  · rw [insertBet]
    simp only [matching_filter_of_mem hk, List.length_cons, List.length_nil]
    norm_num
    have hfk : firstKeys (pre ++ [b]) = firstKeys pre := by
      rw [firstKeys_append, addKey, if_pos hk]
    rw [groupsOf, groupsOf, hfk, List.map_map]
    apply List.map_congr_left
    intro k hkmem
    show (if sameTriple (mergeGroupList (groupOf pre k)) b then
        mergeBet (mergeGroupList (groupOf pre k)) b
      else mergeGroupList (groupOf pre k)) =
      mergeGroupList (groupOf (pre ++ [b]) k)
    rw [sameTriple_eq,
      keyOf_mergeGroupList (groupOf_ne_nil hkmem) (fun x hx => keyOf_mem_groupOf hx),
      groupOf_append_single]
    by_cases hke : k = keyOf b
    · rw [if_pos (by simp [hke]), if_pos hke.symm]
      obtain ⟨h, t, hg⟩ := List.exists_cons_of_ne_nil (groupOf_ne_nil hkmem)
      rw [hg, mergeGroupList_cons, List.cons_append, mergeGroupList_cons,
        mergeGroup_append]
    · rw [if_neg (by simp [hke]), if_neg (fun he => hke he.symm), List.append_nil]
  · rw [insertBet]
    simp only [matching_filter_of_not_mem hk, List.length_nil]
    norm_num
    have hfk : firstKeys (pre ++ [b]) = firstKeys pre ++ [keyOf b] := by
      rw [firstKeys_append, addKey, if_neg hk]
    rw [groupsOf, groupsOf, hfk, List.map_append]
    congr 1
    · apply List.map_congr_left
      intro k hkmem
      have hke : keyOf b ≠ k := fun he => hk (he ▸ hkmem)
      rw [groupOf_append_single, if_neg hke, List.append_nil]
    · rw [List.map_singleton, groupOf_append_single, if_pos rfl,
        groupOf_eq_nil hk, List.nil_append]
      rfl

theorem foldlM_insertBet (post pre : List ProposedBet) :
    post.foldlM insertBet (groupsOf pre) = .ok (groupsOf (pre ++ post)) := by
  induction post generalizing pre with
  | nil => rw [List.append_nil]; rfl
  | cons b post ih =>
    rw [List.foldlM_cons, insertBet_groupsOf]
    show post.foldlM insertBet (groupsOf (pre ++ [b])) = _
    rw [ih (pre ++ [b]), List.append_assoc, List.singleton_append]

theorem combine_strat_results_eq (results : List StrategyResult) :
    combine_strat_results results =
      .ok { bets := some (groupsOf (allBets results)), event := none,
            strategy := none } := by
  rw [combine_strat_results]
  have h := foldlM_insertBet (allBets results) []
  rw [show groupsOf [] = [] from rfl, List.nil_append] at h
  rw [h]
  rfl

theorem mergeGroup_amount (t : List ProposedBet) (h : ProposedBet) :
    (mergeGroup h t).amount ∈ (h :: t).map (fun x => x.amount) ∧
      ∀ x ∈ h :: t, x.amount ≤ (mergeGroup h t).amount := by
  induction t generalizing h with
  | nil => simp [mergeGroup]
  | cons a t ih =>
    obtain ⟨ihmem, ihle⟩ := ih (mergeBet h a)
    have hma : (mergeBet h a).amount = max a.amount h.amount := rfl
    rw [mergeGroup_cons]
    constructor
    · rcases List.mem_cons.1 ihmem with he | hmem
      · rw [he]
        show (mergeBet h a).amount ∈ List.map (fun x => x.amount) (h :: a :: t)
        rw [hma]
        rcases max_choice a.amount h.amount with hc | hc <;> rw [hc] <;> simp
      · simp only [List.map_cons, List.mem_cons] at hmem ⊢
        tauto
    · intro x hx
      rcases List.mem_cons.1 hx with rfl | hx'
      · exact le_trans (le_trans (le_max_right a.amount x.amount)
          (le_of_eq hma.symm)) (ihle _ (List.mem_cons_self _ _))
      · rcases List.mem_cons.1 hx' with rfl | hx''
        · exact le_trans (le_trans (le_max_left x.amount h.amount)
            (le_of_eq hma.symm)) (ihle _ (List.mem_cons_self _ _))
        · exact ihle x (List.mem_cons_of_mem _ hx'')

theorem mergeGroup_limit_yes (t : List ProposedBet) (h : ProposedBet)
    (hout : h.outcome = "YES") :
    (mergeGroup h t).limit_prob ∈ (h :: t).map (fun x => x.limit_prob) ∧
      ∀ x ∈ h :: t, x.limit_prob ≤ (mergeGroup h t).limit_prob := by
  induction t generalizing h with
  | nil => simp [mergeGroup]
  | cons a t ih =>
    obtain ⟨ihmem, ihle⟩ := ih (mergeBet h a) (by rw [outcome_mergeBet]; exact hout)
    have hml : (mergeBet h a).limit_prob = max a.limit_prob h.limit_prob := by
      rw [mergeBet]
      simp [hout]
    rw [mergeGroup_cons]
    constructor
    · rcases List.mem_cons.1 ihmem with he | hmem
      · rw [he]
        show (mergeBet h a).limit_prob ∈ List.map (fun x => x.limit_prob) (h :: a :: t)
        rw [hml]
        rcases max_choice a.limit_prob h.limit_prob with hc | hc <;> rw [hc] <;> simp
      · simp only [List.map_cons, List.mem_cons] at hmem ⊢
        tauto
    · intro x hx
      rcases List.mem_cons.1 hx with rfl | hx'
      · exact le_trans (le_trans (le_max_right a.limit_prob x.limit_prob)
          (le_of_eq hml.symm)) (ihle _ (List.mem_cons_self _ _))
      · rcases List.mem_cons.1 hx' with rfl | hx''
        · exact le_trans (le_trans (le_max_left x.limit_prob h.limit_prob)
            (le_of_eq hml.symm)) (ihle _ (List.mem_cons_self _ _))
        · exact ihle x (List.mem_cons_of_mem _ hx'')

theorem mergeGroup_limit_other (t : List ProposedBet) (h : ProposedBet)
    (hout : h.outcome ≠ "YES") :
    (mergeGroup h t).limit_prob ∈ (h :: t).map (fun x => x.limit_prob) ∧
      ∀ x ∈ h :: t, (mergeGroup h t).limit_prob ≤ x.limit_prob := by
  induction t generalizing h with
  | nil => simp [mergeGroup]
  | cons a t ih =>
    obtain ⟨ihmem, ihle⟩ := ih (mergeBet h a) (by rw [outcome_mergeBet]; exact hout)
    have hml : (mergeBet h a).limit_prob = min a.limit_prob h.limit_prob := by
      rw [mergeBet]
      simp [hout]
    rw [mergeGroup_cons]
    constructor
    · rcases List.mem_cons.1 ihmem with he | hmem
      · rw [he]
        show (mergeBet h a).limit_prob ∈ List.map (fun x => x.limit_prob) (h :: a :: t)
        rw [hml]
        rcases min_choice a.limit_prob h.limit_prob with hc | hc <;> rw [hc] <;> simp
      · simp only [List.map_cons, List.mem_cons] at hmem ⊢
        tauto
    · intro x hx
      rcases List.mem_cons.1 hx with rfl | hx'
      · exact le_trans (ihle _ (List.mem_cons_self _ _))
          (le_trans (le_of_eq hml) (min_le_right a.limit_prob x.limit_prob))
      · rcases List.mem_cons.1 hx' with rfl | hx''
        · exact le_trans (ihle _ (List.mem_cons_self _ _))
            (le_trans (le_of_eq hml) (min_le_left x.limit_prob h.limit_prob))
        · exact ihle x (List.mem_cons_of_mem _ hx'')

theorem joinSources_cons (b c : ProposedBet) (cs : List ProposedBet) :
    joinSources (b :: c :: cs) = b.source_strategy ++ "," ++ joinSources (c :: cs) :=
  rfl

theorem mergeGroup_sources (t : List ProposedBet) (h : ProposedBet) :
    (mergeGroup h t).source_strategy = joinSources (h :: t) := by
  induction t generalizing h with
  | nil => rfl
  | cons a t ih =>
    rw [mergeGroup_cons]
    rw [ih (mergeBet h a)]
    have hms : (mergeBet h a).source_strategy =
        h.source_strategy ++ "," ++ a.source_strategy := rfl
    cases t with
    | nil =>
      rw [joinSources_cons]
      show (mergeBet h a).source_strategy =
        h.source_strategy ++ "," ++ a.source_strategy
      exact hms
    | cons c cs =>
      simp [joinSources_cons, hms, String.append_assoc]

/-! ## The claims about reconciliation -/

/-- C2: for every list of strategy results given to the reconciliation merge,
`combine_strat_results` succeeds and its merged result contains at most one
proposed action per (contract_id, answer_id, outcome) triple: distinct actions
of the merged result always have distinct triples. -/
theorem C2_reconciliation_invariant (results : List StrategyResult) :
    ∃ bs, combine_strat_results results =
        .ok { bets := some bs, event := none, strategy := none } ∧
      bs.Pairwise (fun a b => keyOf a ≠ keyOf b) := by
  refine ⟨groupsOf (allBets results), combine_strat_results_eq results, ?_⟩
  have h : (List.map keyOf (groupsOf (allBets results))).Pairwise (· ≠ ·) := by
    rw [map_keyOf_groupsOf]
    exact nodup_firstKeys (allBets results)
  exact List.pairwise_map.1 h

/-- C3: the reconciliation merge groups proposals by
(contract_id, answer_id, outcome); every action of the merged result is the
merge of its group with magnitude the maximum of the group, limit probability
the maximum of the group for "YES" and the minimum otherwise, provenance the
concatenation of the group's provenance fields, and a singleton group passed
through unchanged. -/
theorem C3_group_merge (results : List StrategyResult) (b : ProposedBet)
    (hb : b ∈ groupsOf (allBets results)) :
    combine_strat_results results =
      .ok { bets := some (groupsOf (allBets results)), event := none,
            strategy := none } ∧
    MergedGroupSpec (allBets results) b := by
  refine ⟨combine_strat_results_eq results, ?_⟩
  rw [groupsOf] at hb
  obtain ⟨k, hk, hbk⟩ := List.mem_map.1 hb
  have hkey : keyOf b = k := by
    rw [← hbk]
    exact keyOf_mergeGroupList (groupOf_ne_nil hk) (fun x hx => keyOf_mem_groupOf hx)
  obtain ⟨h, t, hg⟩ := List.exists_cons_of_ne_nil (groupOf_ne_nil hk)
  have hbm : b = mergeGroup h t := by
    rw [← hbk, hg, mergeGroupList_cons]
  have houtcome : h.outcome = b.outcome := by
    have hhk : keyOf h = keyOf b := by
      rw [hkey]
      exact keyOf_mem_groupOf (hg ▸ List.mem_cons_self h t : h ∈ groupOf _ _)
    exact congrArg (fun p => p.2.2) hhk
  refine ⟨?_, ?_, ?_, ?_, ?_, ?_, ?_⟩
  · rw [hkey, hg]
    exact List.cons_ne_nil h t
  · rw [hkey, ← hbk]
  · intro x hx
    rw [hkey] at hx
    rw [← hbk, hx]
    rfl
  · rw [hkey, hg, hbm]
    exact mergeGroup_amount t h
  · intro hout
    rw [hkey, hg, hbm]
    exact mergeGroup_limit_yes t h (by rw [houtcome, hout])
  · intro hout
    rw [hkey, hg, hbm]
    exact mergeGroup_limit_other t h (by rw [houtcome]; exact hout)
  · rw [hkey, hg, hbm]
    exact mergeGroup_sources t h

/-- Witness for C3 at a concrete input: three strategies proposing on the same
triple with limits 0.55, 0.60, 0.50 merge into the single action with
magnitude 20, limit 0.60 and provenance "S1,S2,S3". -/
theorem C3_group_merge_witness :
    demoMerged ∈ groupsOf (allBets demoResults) ∧
      (combine_strat_results demoResults =
        .ok { bets := some (groupsOf (allBets demoResults)), event := none,
              strategy := none } ∧
      MergedGroupSpec (allBets demoResults) demoMerged) :=
  ⟨by decide, C3_group_merge demoResults demoMerged (by decide)⟩

/-- C4 counterexample: three proposals colliding on the same
(contract_id, answer_id, outcome) triple do NOT make reconciliation raise a
fatal internal error; the merge returns normally with the single merged
action. -/
theorem C4_counterexample :
    combine_strat_results demoResults =
      .ok { bets := some [demoMerged], event := none, strategy := none } ∧
    ∀ e, combine_strat_results demoResults ≠ .error e := by
  refine ⟨by decide, ?_⟩
  intro e he
  rw [show combine_strat_results demoResults =
    .ok { bets := some [demoMerged], event := none, strategy := none } by decide] at he
  exact Except.noConfusion he

/-- C4 amended: the merge needs no error for any number of proposals colliding
on one triple, because each additional colliding proposal is folded into the
single already-merged action; the fatal-error branch that guards a second
surviving action per triple is unreachable and `combine_strat_results` never
returns an error. -/
theorem C4_no_fatal_error (results : List StrategyResult) :
    ∀ e, combine_strat_results results ≠ .error e := by
  intro e he
  rw [combine_strat_results_eq results] at he
  exact Except.noConfusion he

/-! ## The claims about strategy orchestration -/

theorem gatherResults_error (pre post : List (Except String StrategyResult))
    (e : String) (hpre : ∀ r ∈ pre, ∃ x, r = .ok x) :
    gatherResults (pre ++ .error e :: post) = .error e := by
  induction pre with
  | nil => rfl
  | cons r pre ih =>
    obtain ⟨x, hx⟩ := hpre r (List.mem_cons_self r pre)
    rw [hx, List.cons_append, gatherResults,
      ih (fun r hr => hpre r (List.mem_cons_of_mem _ hr))]

/-- C5 counterexample: one strategy evaluation raising aborts the whole
reaction even though a sibling strategy produced a proposal — the orchestrator
returns the error instead of the sibling's result, so the sibling's proposals
are discarded and reconciliation never runs. -/
theorem C5_counterexample :
    get_proposed_response_result demoOutcomes = .error "strategy crashed" ∧
    ∀ v, get_proposed_response_result demoOutcomes ≠ .ok v := by
  refine ⟨by decide, ?_⟩
  intro v hv
  rw [show get_proposed_response_result demoOutcomes =
    .error "strategy crashed" by decide] at hv
  exact Except.noConfusion hv

/-- C5 amended: an internal error raised inside one strategy's evaluation
propagates out of the batched await, so the reaction to the triggering event
aborts before reconciliation and every sibling's result is discarded; the
error is then caught and logged at the `on_bet` boundary (it never escapes to
the listen loop), but per-strategy isolation does not hold. -/
theorem C5_error_propagates (pre post : List (Except String StrategyResult))
    (e : String) (hpre : ∀ r ∈ pre, ∃ x, r = .ok x) :
    get_proposed_response_result (pre ++ .error e :: post) = .error e ∧
    on_bet (get_proposed_response_result (pre ++ .error e :: post)) =
      (none, some e) := by
  have hg := gatherResults_error pre post e hpre
  constructor
  · rw [get_proposed_response_result, hg]
  · rw [get_proposed_response_result, hg]
    rfl

/-- Witness for C5 at a concrete input: a successful proposal followed by a
raising strategy yields the error and an aborted, logged reaction. -/
theorem C5_error_propagates_witness :
    (∀ r ∈ [(.ok { bets := some [demoBet 10 (Rat.mk' 11 20) "S1"] } :
        Except String StrategyResult)], ∃ x, r = .ok x) ∧
    (get_proposed_response_result
        ([.ok { bets := some [demoBet 10 (Rat.mk' 11 20) "S1"] }] ++
          .error "strategy crashed" :: []) = .error "strategy crashed" ∧
      on_bet (get_proposed_response_result
        ([.ok { bets := some [demoBet 10 (Rat.mk' 11 20) "S1"] }] ++
          .error "strategy crashed" :: [])) = (none, some "strategy crashed")) :=
  ⟨fun r hr => ⟨{ bets := some [demoBet 10 (Rat.mk' 11 20) "S1"] },
      by rw [List.mem_singleton] at hr; exact hr⟩,
    C5_error_propagates [.ok { bets := some [demoBet 10 (Rat.mk' 11 20) "S1"] }]
      [] "strategy crashed"
      (fun r hr => ⟨{ bets := some [demoBet 10 (Rat.mk' 11 20) "S1"] },
        by rw [List.mem_singleton] at hr; exact hr⟩)⟩

/-! ## The claim about bet validation -/

theorem roundEven_intCast (n : ℤ) : roundEven (n : ℚ) = n := by
  simp [roundEven, Int.floor_intCast]

theorem round2_fixed_iff (p : ℚ) : round2 p = p ↔ (100 * p).den = 1 := by
  constructor
  · intro h
    rw [round2] at h
    have h2 : ((roundEven (100 * p) : ℤ) : ℚ) = p * 100 :=
      (div_eq_iff (by norm_num : (100 : ℚ) ≠ 0)).1 h
    rw [mul_comm, ← h2]
    exact Rat.den_intCast _
  · intro h
    have hnum : ((100 * p).num : ℚ) = 100 * p := by
      conv_rhs => rw [← Rat.num_div_den (100 * p)]
      rw [h]
      simp
    have hre : roundEven (100 * p) = (100 * p).num := by
      conv_lhs => rw [← hnum]
      exact roundEven_intCast _
    rw [round2, hre, hnum]
    exact mul_div_cancel_left₀ p (by norm_num)

/-- C6 counterexample: the boundary value 0.01 is accepted by validation (the
range check is inclusive), although it does not lie strictly inside
(0.01, 0.99). -/
theorem C6_counterexample :
    validate 100 5 (some (1 / 100)) = .ok (5, 1 / 100) ∧
    ¬((1 : ℚ) / 100 < 1 / 100) := by
  constructor
  · have hfix : round2 ((1 : ℚ) / 100) = 1 / 100 := by
      refine (round2_fixed_iff _).2 ?_
      rw [show (100 : ℚ) * (1 / 100) = 1 by norm_num]
      exact Rat.den_one
    simp only [validate]
    rw [if_neg (not_not_intro ⟨by norm_num, by norm_num⟩),
      if_neg (not_not_intro hfix)]
    norm_num
  · exact lt_irrefl _

/-- C6 amended: validation of a `ProposedBet` succeeds exactly when the limit
probability lies in the closed interval [0.01, 0.99] (the boundaries are
accepted, the bounds are not strict) and carries at most two decimal digits;
a missing limit probability is rejected, and an amount above the `MAX_BET_SIZE`
ceiling is clamped to the ceiling, never rejected. -/
theorem C6_validate_clamp_inclusive (MAX amount : Int) (p : ℚ) :
    (validate MAX amount (some p) = .ok (min amount MAX, p) ↔
      1 / 100 ≤ p ∧ p ≤ 99 / 100 ∧ (100 * p).den = 1) ∧
    validate MAX amount none = .error "limit_prob required" ∧
    (∀ v, validate MAX amount (some p) = .ok v → v = (min amount MAX, p)) := by
  have hmin : (if MAX < amount then MAX else amount) = min amount MAX := by
    rcases le_or_lt amount MAX with h | h
    · rw [if_neg (not_lt.2 h), min_eq_left h]
    · rw [if_pos h, min_eq_right h.le]
  refine ⟨⟨?_, ?_⟩, rfl, ?_⟩
  · intro h
    simp only [validate] at h
    by_cases h1 : 1 / 100 ≤ p ∧ p ≤ 99 / 100
    · by_cases h2 : round2 p = p
      · exact ⟨h1.1, h1.2, (round2_fixed_iff p).1 h2⟩
      · rw [if_neg (not_not_intro h1), if_pos h2] at h
        exact Except.noConfusion h
    · rw [if_pos h1] at h
      exact Except.noConfusion h
  · rintro ⟨ha, hb, hd⟩
    simp only [validate]
    rw [if_neg (not_not_intro ⟨ha, hb⟩),
      if_neg (not_not_intro ((round2_fixed_iff p).2 hd)), hmin]
  · intro v hv
    simp only [validate] at hv
    by_cases h1 : 1 / 100 ≤ p ∧ p ≤ 99 / 100
    · by_cases h2 : round2 p = p
      · rw [if_neg (not_not_intro h1), if_neg (not_not_intro h2)] at hv
        rw [← Except.ok.inj hv, hmin]
      · rw [if_neg (not_not_intro h1), if_pos h2] at hv
        exact absurd hv (fun hc => Except.noConfusion hc)
    · rw [if_pos h1] at hv
      exact absurd hv (fun hc => Except.noConfusion hc)

/-! ## The claim about the qualifier chain -/

theorem run_qualifiers_none_iff {ι : Type} (chain : List (ι → QualificationResult))
    (x : ι) :
    run_qualifiers chain x = none ↔ ∀ q ∈ chain, (q x).decision = .PASS := by
  induction chain with
  | nil => simp [run_qualifiers]
  | cons q rest ih =>
    rw [run_qualifiers]
    by_cases h : (q x).decision = .FAIL
    · rw [if_pos h]
      constructor
      · intro hc
        exact Option.noConfusion hc
      · intro hall
        have hp := hall q (List.mem_cons_self q rest)
        rw [hp] at h
        exact Decision.noConfusion h
    · rw [if_neg h, ih]
      have hpass : (q x).decision = .PASS := by
        cases hd : (q x).decision
        · rfl
        · exact absurd hd h
      constructor
      · intro hall q' hq'
        rcases List.mem_cons.1 hq' with rfl | hq''
        · exact hpass
        · exact hall q' hq''
      · intro hall q' hq'
        exact hall q' (List.mem_cons_of_mem _ hq')

theorem run_qualifiers_some {ι : Type} (chain : List (ι → QualificationResult))
    (x : ι) (r : QualificationResult) (h : run_qualifiers chain x = some r) :
    ∃ pre q post, chain = pre ++ q :: post ∧
      (∀ p ∈ pre, (p x).decision = .PASS) ∧
      (q x).decision = .FAIL ∧ r = q x := by
  induction chain with
  | nil => exact Option.noConfusion h
  | cons q rest ih =>
    rw [run_qualifiers] at h
    by_cases hq : (q x).decision = .FAIL
    · rw [if_pos hq] at h
      exact ⟨[], q, rest, rfl, fun p hp => absurd hp (List.not_mem_nil p), hq,
        (Option.some.inj h).symm⟩
    · rw [if_neg hq] at h
      obtain ⟨pre, q', post, hc, hpre, hfail, hr⟩ := ih h
      have hpass : (q x).decision = .PASS := by
        cases hd : (q x).decision
        · rfl
        · exact absurd hd hq
      refine ⟨q :: pre, q', post, by rw [List.cons_append, hc], ?_, hfail, hr⟩
      intro p hp
      rcases List.mem_cons.1 hp with rfl | hp'
      · exact hpass
      · exact hpre p hp'

/-- C7: a qualifier chain (base qualifiers followed by strategy-specific ones)
reports an overall PASS (returns no failure, so proposing proceeds) exactly
when every member qualifier passes; otherwise the returned verdict is that of
the first failing qualifier — every qualifier before it passed — so the
chain's reported reason equals the first failing qualifier's reason. -/
theorem C7_qualifier_chain {ι : Type} (base strat : List (ι → QualificationResult))
    (x : ι) :
    (run_qualifiers (fullChain base strat) x = none ↔
      ∀ q ∈ fullChain base strat, (q x).decision = .PASS) ∧
    ∀ r, run_qualifiers (fullChain base strat) x = some r →
      ∃ pre q post, fullChain base strat = pre ++ q :: post ∧
        (∀ p ∈ pre, (p x).decision = .PASS) ∧
        (q x).decision = .FAIL ∧ r = q x ∧ r.reason = (q x).reason := by
  refine ⟨run_qualifiers_none_iff _ x, ?_⟩
  intro r hr
  obtain ⟨pre, q, post, hc, hpre, hfail, hrq⟩ := run_qualifiers_some _ x r hr
  exact ⟨pre, q, post, hc, hpre, hfail, hrq, by rw [hrq]⟩

/-! ## The claim about submitted order magnitudes -/

/-- C10: every order the submission loop places has magnitude
`max(proposal amount, 1)`; a surviving proposal is always submitted, and a
proposal with zero or negative amount is submitted with magnitude 1 rather
than rejected or skipped (only the missing-answer-id guard skips). -/
theorem C10_submission_magnitude (outcome_type : String) (bets : List ProposedBet) :
    (∀ pr ∈ submittedBets outcome_type bets, pr.2 = max pr.1.amount 1 ∧ 1 ≤ pr.2) ∧
    (∀ b ∈ bets, skipsSubmission outcome_type b = false →
      (b, max b.amount 1) ∈ submittedBets outcome_type bets) ∧
    (∀ b ∈ bets, skipsSubmission outcome_type b = false → b.amount ≤ 0 →
      (b, 1) ∈ submittedBets outcome_type bets) := by
  refine ⟨?_, ?_, ?_⟩
  · intro pr hpr
    obtain ⟨b, hb, hf⟩ := List.mem_filterMap.1 hpr
    by_cases hs : skipsSubmission outcome_type b
    · rw [if_pos hs] at hf
      exact Option.noConfusion hf
    · rw [if_neg hs] at hf
      obtain rfl := Option.some.inj hf
      exact ⟨rfl, le_max_right _ _⟩
  · intro b hb hs
    exact List.mem_filterMap.2 ⟨b, hb, by rw [if_neg (by simp [hs])]⟩
  · intro b hb hs ha
    have h1 : max b.amount 1 = 1 := max_eq_right (le_trans ha zero_le_one)
    refine List.mem_filterMap.2 ⟨b, hb, ?_⟩
    rw [if_neg (by simp [hs]), h1]

/-! ## The claim about reconnection backoff -/

theorem reconnectLoop_take (succeeds : Nat → Bool) (base maxD : Int) :
    ∀ N fuel k, N ≤ fuel → (∀ j, j < N → succeeds (k + j + 1) = false) →
    (reconnectLoop succeeds base maxD k fuel).1.take N =
      (List.range N).map (fun j => min (base * 2 ^ (k + j)) maxD) := by
  intro N
  induction N with
  | zero => intro fuel k _ _; simp
  | succ N ih =>
    intro fuel k hle hfail
    cases fuel with
    | zero => omega
    | succ fuel =>
      rw [reconnectLoop]
      have h0 : succeeds (k + 1) = false := by simpa using hfail 0 (by omega)
      rw [if_neg (by rw [h0]; exact Bool.false_ne_true)]
      simp only [List.take_succ_cons]
      rw [ih fuel (k + 1) (by omega) (fun j hj => by
        rw [show k + 1 + j + 1 = k + (j + 1) + 1 by omega]
        exact hfail (j + 1) (by omega))]
      rw [List.range_succ_eq_map]
      simp only [List.map_cons, List.map_map]
      congr 1
      apply List.map_congr_left
      intro j hj
      show min (base * 2 ^ (k + 1 + j)) maxD = min (base * 2 ^ (k + (j + 1))) maxD
      rw [show k + 1 + j = k + (j + 1) by omega]

theorem reconnectLoop_all_fail (succeeds : Nat → Bool) (base maxD : Int) :
    ∀ fuel k, (∀ j, j < fuel → succeeds (k + j + 1) = false) →
    reconnectLoop succeeds base maxD k fuel =
      ((List.range fuel).map (fun j => min (base * 2 ^ (k + j)) maxD), false) := by
  intro fuel
  induction fuel with
  | zero => intro k _; simp [reconnectLoop]
  | succ fuel ih =>
    intro k hfail
    rw [reconnectLoop]
    have h0 : succeeds (k + 1) = false := by simpa using hfail 0 (by omega)
    rw [if_neg (by rw [h0]; exact Bool.false_ne_true)]
    rw [ih (k + 1) (fun j hj => by
      rw [show k + 1 + j + 1 = k + (j + 1) + 1 by omega]
      exact hfail (j + 1) (by omega))]
    rw [List.range_succ_eq_map]
    simp only [List.map_cons, List.map_map]
    congr 2
    apply List.map_congr_left
    intro j hj
    show min (base * 2 ^ (k + 1 + j)) maxD = min (base * 2 ^ (k + (j + 1))) maxD
    rw [show k + 1 + j = k + (j + 1) by omega]

theorem reconnectLoop_length (succeeds : Nat → Bool) (base maxD : Int) :
    ∀ fuel k, (reconnectLoop succeeds base maxD k fuel).1.length ≤ fuel := by
  intro fuel
  induction fuel with
  | zero => intro k; simp [reconnectLoop]
  | succ fuel ih =>
    intro k
    rw [reconnectLoop]
    by_cases h : succeeds (k + 1) = true
    · rw [if_pos h]
      simp
    · rw [if_neg h]
      simp only [List.length_cons]
      exact Nat.succ_le_succ (ih (k + 1))

/-- C9: the delay before reconnect attempt k is
min(reconnect_delay * 2^(k-1), max_reconnect_delay): for N induced failed
connect attempts (N below the attempt cap) the observed delays are
base*2^0, base*2^1, ..., base*2^(N-1), each capped at max_reconnect_delay;
the number of delays never exceeds the attempt cap; and when every attempt
up to the cap fails, the session ends disconnected and the fatal
reconnect-exhausted error is reported. -/
theorem C9_reconnect_backoff (succeeds : Nat → Bool) (N : Nat)
    (hN : N < max_reconnect_attempts)
    (hfail : ∀ j, j < N → succeeds (j + 1) = false) :
    (reconnect succeeds reconnect_delay max_reconnect_delay
        max_reconnect_attempts).delays.take N =
      (List.range N).map
        (fun j => min (reconnect_delay * 2 ^ j) max_reconnect_delay) ∧
    (reconnect succeeds reconnect_delay max_reconnect_delay
        max_reconnect_attempts).delays.length ≤ max_reconnect_attempts ∧
    ((∀ j, j < max_reconnect_attempts → succeeds (j + 1) = false) →
      (reconnect succeeds reconnect_delay max_reconnect_delay
          max_reconnect_attempts).connected = false ∧
      (reconnect succeeds reconnect_delay max_reconnect_delay
          max_reconnect_attempts).fatalReported = true) := by
  refine ⟨?_, ?_, ?_⟩
  · have h := reconnectLoop_take succeeds reconnect_delay max_reconnect_delay N
      max_reconnect_attempts 0 (le_of_lt hN) (fun j hj => by simpa using hfail j hj)
    simpa [reconnect] using h
  · have h := reconnectLoop_length succeeds reconnect_delay max_reconnect_delay
      max_reconnect_attempts 0
    simpa [reconnect] using h
  · intro hall
    have h := reconnectLoop_all_fail succeeds reconnect_delay max_reconnect_delay
      max_reconnect_attempts 0 (fun j hj => by simpa using hall j hj)
    simp [reconnect, h]

/-- Witness for C9 at a concrete input: three consecutive failed attempts
produce delays 5, 10, 20; an always-failing connection exhausts the cap
disconnected with the fatal error reported. -/
theorem C9_reconnect_backoff_witness :
    (3 < max_reconnect_attempts) ∧
    ((reconnect (fun _ => false) reconnect_delay max_reconnect_delay
        max_reconnect_attempts).delays.take 3 =
      (List.range 3).map
        (fun j => min (reconnect_delay * 2 ^ j) max_reconnect_delay) ∧
    (reconnect (fun _ => false) reconnect_delay max_reconnect_delay
        max_reconnect_attempts).delays.length ≤ max_reconnect_attempts ∧
    ((∀ j, j < max_reconnect_attempts → (fun _ => false : Nat → Bool) (j + 1) = false) →
      (reconnect (fun _ => false) reconnect_delay max_reconnect_delay
          max_reconnect_attempts).connected = false ∧
      (reconnect (fun _ => false) reconnect_delay max_reconnect_delay
          max_reconnect_attempts).fatalReported = true)) :=
  ⟨by decide, C9_reconnect_backoff (fun _ => false) 3 (by decide) (fun j hj => rfl)⟩

/-! ## Lemmas about the request layer -/

theorem attemptLoop_success_nostore (ep kd : String) (g hck : Bool) (ttl : Int)
    (fuel : Nat) (s : ClientState) (d : Nat)
    (hatt : s.attempts s.calls = .success d)
    (hcond : (g && hck && decide (ttl > 0)) = false) :
    attemptLoop ep kd g ttl hck (fuel + 1) s =
      (.ok ⟨d, s.freshOid⟩,
       { s with calls := s.calls + 1, freshOid := s.freshOid + 1 }) := by
  simp only [attemptLoop, hatt, hcond]
  rfl

theorem attemptLoop_success_store (ep kd : String) (ttl : Int) (fuel : Nat)
    (s : ClientState) (d : Nat)
    (hatt : s.attempts s.calls = .success d) (httl : 0 < ttl) :
    attemptLoop ep kd true ttl true (fuel + 1) s =
      (.ok ⟨d, s.freshOid⟩,
       { s with
           calls := s.calls + 1
           freshOid := s.freshOid + 1
           cache := removeEntry s.cache ep kd ++
             [⟨ep, kd, s.now, ⟨d, s.freshOid⟩⟩] }) := by
  simp only [attemptLoop, hatt, httl]
  rfl

theorem attemptLoop_apiError (ep kd : String) (g hck : Bool) (ttl : Int)
    (fuel : Nat) (s : ClientState) (st : Nat) (tx : String)
    (hatt : s.attempts s.calls = .apiError st tx) :
    attemptLoop ep kd g ttl hck (fuel + 1) s =
      (.error (.api st tx), { s with calls := s.calls + 1 }) := by
  simp only [attemptLoop, hatt]

theorem attemptLoop_clientError_step (ep kd : String) (g hck : Bool) (ttl : Int)
    (fuel : Nat) (s : ClientState) (m : String)
    (hatt : s.attempts s.calls = .clientError m) (hf : fuel ≠ 0) :
    attemptLoop ep kd g ttl hck (fuel + 1) s =
      attemptLoop ep kd g ttl hck fuel
        { s with now := s.now + retry_delay, calls := s.calls + 1 } := by
  simp only [attemptLoop, hatt, if_neg hf]

theorem attemptLoop_clientError_last (ep kd : String) (g hck : Bool) (ttl : Int)
    (s : ClientState) (m : String)
    (hatt : s.attempts s.calls = .clientError m) :
    attemptLoop ep kd g ttl hck (0 + 1) s =
      (.error (.exhausted max_retries m), { s with calls := s.calls + 1 }) := by
  simp only [attemptLoop, hatt]
  rfl

theorem cleanup_cache_of_empty (s : ClientState) (h : s.cache = []) :
    cleanup_cache s = s := by
  rw [cleanup_cache]
  by_cases hc : s.cache_ttl ≤ 0 ∧ s.cache_ttl_overrides = []
  · rw [if_pos hc]
  · rw [if_neg hc, h, List.filter_nil]
    conv_lhs => rw [← h]

theorem effTtl_pos_not_disabled (s : ClientState) (ep : String)
    (h : 0 < effTtl s ep) :
    ¬(s.cache_ttl ≤ 0 ∧ s.cache_ttl_overrides = []) := by
  rintro ⟨h1, h2⟩
  rw [effTtl, h2] at h
  simp only [List.lookup] at h
  omega

theorem attemptLoop_write_cache (ep kd : String) (ttl : Int) :
    ∀ fuel (s : ClientState),
      (attemptLoop ep kd false ttl false fuel s).2.cache = s.cache := by
  intro fuel
  induction fuel with
  | zero => intro s; rfl
  | succ fuel ih =>
    intro s
    cases h : s.attempts s.calls with
    | success d =>
      rw [attemptLoop_success_nostore ep kd false false ttl fuel s d h (by simp)]
    | apiError st tx =>
      rw [attemptLoop_apiError ep kd false false ttl fuel s st tx h]
    | clientError m =>
      by_cases hf : fuel = 0
      · subst hf
        rw [attemptLoop_clientError_last ep kd false false ttl s m h]
      · rw [attemptLoop_clientError_step ep kd false false ttl fuel s m h hf]
        exact ih _

theorem make_request_write (ep pr : String) (s : ClientState) :
    make_request ep (some pr) false s =
      attemptLoop ep pr false (effTtl s ep) false max_retries s := by
  simp only [make_request]
  rw [if_neg (by simp)]
  rfl

/-! ## The claim about writes in the request layer -/

/-- C1 counterexample: a write (POST) whose first network attempt fails with
a transient connection error is retried — the second attempt succeeds and the
call returns the response after two network attempts, so a write is not
attempted at most once and a transient failure is not surfaced immediately.
The cache stays untouched. -/
theorem C1_counterexample :
    (make_request "bet" (some "params") false demoWriteState).1 = .ok ⟨7, 0⟩ ∧
    (make_request "bet" (some "params") false demoWriteState).2.calls = 2 ∧
    (make_request "bet" (some "params") false demoWriteState).2.cache = [] :=
  ⟨by decide, by decide, by decide⟩

/-- C1 amended: a write is never cached (the cache is untouched by any POST),
but the retry loop applies to writes exactly as to reads: a transient
network-level failure is retried after a fixed delay, up to `max_retries` (3)
total attempts, so a write can be attempted up to three times per call;
an application-level error (HTTP status >= 400) is surfaced immediately
without retry, and exhausting the retries raises an error carrying the
attempt count. -/
theorem C1_write_not_cached_but_retried (ep pr m tx : String) (s : ClientState)
    (d st : Nat) :
    (make_request ep (some pr) false s).2.cache = s.cache ∧
    (s.attempts s.calls = .clientError m → s.attempts (s.calls + 1) = .success d →
      (make_request ep (some pr) false s).1 = .ok ⟨d, s.freshOid⟩ ∧
      (make_request ep (some pr) false s).2.calls = s.calls + 2) ∧
    (s.attempts s.calls = .apiError st tx →
      (make_request ep (some pr) false s).1 = .error (.api st tx) ∧
      (make_request ep (some pr) false s).2.calls = s.calls + 1) ∧
    ((∀ i, i < max_retries → s.attempts (s.calls + i) = .clientError m) →
      (make_request ep (some pr) false s).1 = .error (.exhausted max_retries m) ∧
      (make_request ep (some pr) false s).2.calls = s.calls + max_retries) := by
  rw [make_request_write]
  refine ⟨?_, ?_, ?_, ?_⟩
  · exact attemptLoop_write_cache ep pr (effTtl s ep) max_retries s
  · intro h1 h2
    rw [show max_retries = 2 + 1 from rfl,
      attemptLoop_clientError_step ep pr false false (effTtl s ep) 2 s m h1 (by norm_num),
      show (2 : Nat) = 1 + 1 from rfl,
      attemptLoop_success_nostore ep pr false false (effTtl s ep) 1 _ d h2 (by simp)]
    exact ⟨rfl, rfl⟩
  · intro h
    rw [show max_retries = 2 + 1 from rfl,
      attemptLoop_apiError ep pr false false (effTtl s ep) 2 s st tx h]
    exact ⟨rfl, rfl⟩
  · intro hall
    rw [show max_retries = 2 + 1 from rfl,
      attemptLoop_clientError_step ep pr false false (effTtl s ep) 2 s m
        (by simpa using hall 0 (by decide)) (by norm_num),
      show (2 : Nat) = 1 + 1 from rfl,
      attemptLoop_clientError_step ep pr false false (effTtl s ep) 1 _ m
        (hall 1 (by decide)) (by norm_num),
      attemptLoop_clientError_last ep pr false false (effTtl s ep) _ m
        (hall 2 (by decide))]
    exact ⟨rfl, rfl⟩

/-! ## The claim about cached reads -/


theorem cleanup_cache_single_live (s : ClientState) (e : CacheEntry)
    (hc : s.cache = [e])
    (httl : 0 < effTtl s e.endpoint)
    (hlive : s.now - e.ts < effTtl s e.endpoint) :
    cleanup_cache s = s := by
  rw [cleanup_cache, if_neg (effTtl_pos_not_disabled s e.endpoint httl), hc]
  have h1 : decide (effTtl s e.endpoint ≤ 0) = false :=
    decide_eq_false (not_le.2 httl)
  have h2 : decide (s.now - e.ts ≥ effTtl s e.endpoint) = false :=
    decide_eq_false (not_le.2 hlive)
  simp only [List.filter, h1, h2, Bool.or_self, Bool.not_false, List.filter_nil]
  conv_lhs => rw [← hc]

theorem cleanup_cache_single_expired (s : ClientState) (e : CacheEntry)
    (hc : s.cache = [e])
    (httl : 0 < effTtl s e.endpoint)
    (hexp : effTtl s e.endpoint ≤ s.now - e.ts) :
    cleanup_cache s = { s with cache := [] } := by
  rw [cleanup_cache, if_neg (effTtl_pos_not_disabled s e.endpoint httl), hc]
  have h2 : decide (s.now - e.ts ≥ effTtl s e.endpoint) = true := decide_eq_true hexp
  simp only [List.filter, h2, Bool.or_true, Bool.not_true, List.filter_nil]

theorem findEntry_single (e : CacheEntry) (ep kd : String)
    (hep : e.endpoint = ep) (hkd : e.key_data = kd) :
    findEntry [e] ep kd = some e := by
  simp [findEntry, List.find?, hep, hkd]

theorem make_request_get_hit (ep pr : String) (s s2 : ClientState) (e : CacheEntry)
    (httl : 0 < effTtl s ep)
    (hclean : cleanup_cache s = s2)
    (hfind : findEntry s2.cache ep pr = some e)
    (hfresh : s2.now - e.ts < effTtl s ep) :
    make_request ep (some pr) true s =
      (.ok ⟨e.value.data, s2.freshOid⟩, { s2 with freshOid := s2.freshOid + 1 }) := by
  simp only [make_request, Option.getD]
  rw [if_pos ⟨trivial, httl⟩, hclean, hfind]
  show (if s2.now - e.ts < effTtl s ep then
          ((.ok ⟨e.value.data, s2.freshOid⟩ : Except ReqError Obj),
           { s2 with freshOid := s2.freshOid + 1 })
        else attemptLoop ep pr true (effTtl s ep) true max_retries
          { s2 with cache := removeEntry s2.cache ep pr }) = _
  rw [if_pos hfresh]

theorem make_request_get_miss (ep pr : String) (s s2 : ClientState) (d : Nat)
    (httl : 0 < effTtl s ep)
    (hclean : cleanup_cache s = s2)
    (hfind : findEntry s2.cache ep pr = none)
    (hatt : s2.attempts s2.calls = .success d) :
    make_request ep (some pr) true s =
      (.ok ⟨d, s2.freshOid⟩,
       { s2 with
           calls := s2.calls + 1
           freshOid := s2.freshOid + 1
           cache := removeEntry s2.cache ep pr ++
             [⟨ep, pr, s2.now, ⟨d, s2.freshOid⟩⟩] }) := by
  simp only [make_request, Option.getD]
  rw [if_pos ⟨trivial, httl⟩, hclean, hfind]
  show attemptLoop ep pr true (effTtl s ep) true max_retries s2 = _
  rw [show max_retries = 2 + 1 from rfl,
    attemptLoop_success_store ep pr (effTtl s ep) 2 s2 d hatt httl]



/-- C8: for a GET endpoint whose effective TTL is positive, starting from a
cold cache: the first read issues exactly one network request and returns the
response; a second identical read within TTL returns data equal to the first
response without any network request, and the returned value is an
independent copy whose object identity differs from every cached object, so
the cached entry cannot be mutated through it; a read after the TTL has
elapsed evicts the expired entry and issues exactly one new network request,
leaving exactly the fresh entry in the cache. -/
theorem C8_cached_reads (ep pr : String) (s : ClientState) (d d2 : Nat)
    (dlt dlt2 : Int)
    (httl : 0 < effTtl s ep) (hcache : s.cache = [])
    (hatt : s.attempts s.calls = .success d)
    (hatt2 : s.attempts (s.calls + 1) = .success d2)
    (hdlt : dlt < effTtl s ep) (hdlt2 : effTtl s ep ≤ dlt2) :
    CacheReadSpec ep pr s d d2 dlt dlt2 := by
  have h1 : make_request ep (some pr) true s =
      (.ok ⟨d, s.freshOid⟩,
       { s with
           calls := s.calls + 1
           freshOid := s.freshOid + 1
           cache := [⟨ep, pr, s.now, ⟨d, s.freshOid⟩⟩] }) := by
    have h := make_request_get_miss ep pr s s d httl (cleanup_cache_of_empty s hcache)
      (by rw [hcache]; rfl) hatt
    rw [hcache] at h
    simpa [removeEntry] using h
  have hB := make_request_get_hit ep pr
    { s with
        now := s.now + dlt
        calls := s.calls + 1
        freshOid := s.freshOid + 1
        cache := [⟨ep, pr, s.now, ⟨d, s.freshOid⟩⟩] }
    { s with
        now := s.now + dlt
        calls := s.calls + 1
        freshOid := s.freshOid + 1
        cache := [⟨ep, pr, s.now, ⟨d, s.freshOid⟩⟩] }
    ⟨ep, pr, s.now, ⟨d, s.freshOid⟩⟩
    httl
    (cleanup_cache_single_live _ _ rfl httl
      (by show s.now + dlt - s.now < effTtl s ep
          rw [add_sub_cancel_left]
          exact hdlt))
    (findEntry_single _ ep pr rfl rfl)
    (by show s.now + dlt - s.now < effTtl s ep
        rw [add_sub_cancel_left]
        exact hdlt)
  have hD := make_request_get_miss ep pr
    { s with
        now := s.now + dlt2
        calls := s.calls + 1
        freshOid := s.freshOid + 1
        cache := [⟨ep, pr, s.now, ⟨d, s.freshOid⟩⟩] }
    { s with
        now := s.now + dlt2
        calls := s.calls + 1
        freshOid := s.freshOid + 1
        cache := [] }
    d2 httl
    (by
      have := cleanup_cache_single_expired
        { s with
            now := s.now + dlt2
            calls := s.calls + 1
            freshOid := s.freshOid + 1
            cache := [⟨ep, pr, s.now, ⟨d, s.freshOid⟩⟩] }
        ⟨ep, pr, s.now, ⟨d, s.freshOid⟩⟩ rfl httl
        (by show effTtl s ep ≤ s.now + dlt2 - s.now
            rw [add_sub_cancel_left]
            exact hdlt2)
      exact this)
    rfl
    hatt2
  simp only [CacheReadSpec]
  rw [h1]
  refine ⟨⟨rfl, rfl⟩, ?_, ?_⟩
  · show (make_request ep (some pr) true
        { s with
            now := s.now + dlt
            calls := s.calls + 1
            freshOid := s.freshOid + 1
            cache := [⟨ep, pr, s.now, ⟨d, s.freshOid⟩⟩] }).1 = .ok ⟨d, s.freshOid + 1⟩ ∧
      (make_request ep (some pr) true
        { s with
            now := s.now + dlt
            calls := s.calls + 1
            freshOid := s.freshOid + 1
            cache := [⟨ep, pr, s.now, ⟨d, s.freshOid⟩⟩] }).2.calls = s.calls + 1 ∧
      ∀ e ∈ (make_request ep (some pr) true
        { s with
            now := s.now + dlt
            calls := s.calls + 1
            freshOid := s.freshOid + 1
            cache := [⟨ep, pr, s.now, ⟨d, s.freshOid⟩⟩] }).2.cache,
        e.value.oid ≠ s.freshOid + 1
    rw [hB]
    refine ⟨rfl, rfl, ?_⟩
    intro e he
    simp only [List.mem_singleton] at he
    subst he
    exact Nat.ne_of_lt (Nat.lt_succ_self s.freshOid)
  · show (make_request ep (some pr) true
        { s with
            now := s.now + dlt2
            calls := s.calls + 1
            freshOid := s.freshOid + 1
            cache := [⟨ep, pr, s.now, ⟨d, s.freshOid⟩⟩] }).1 = .ok ⟨d2, s.freshOid + 1⟩ ∧
      (make_request ep (some pr) true
        { s with
            now := s.now + dlt2
            calls := s.calls + 1
            freshOid := s.freshOid + 1
            cache := [⟨ep, pr, s.now, ⟨d, s.freshOid⟩⟩] }).2.calls = s.calls + 1 + 1 ∧
      (make_request ep (some pr) true
        { s with
            now := s.now + dlt2
            calls := s.calls + 1
            freshOid := s.freshOid + 1
            cache := [⟨ep, pr, s.now, ⟨d, s.freshOid⟩⟩] }).2.cache =
        [⟨ep, pr, s.now + dlt2, ⟨d2, s.freshOid + 1⟩⟩]
    rw [hD]
    exact ⟨rfl, rfl, rfl⟩

/-- Witness for C8 at a concrete input: default TTL 10, a read at time 0, a
hit at time 3 and a refresh at time 10, with network payloads 40 then 41. -/
theorem C8_cached_reads_witness :
    (0 < effTtl demoState "markets" ∧ demoState.cache = [] ∧
      demoState.attempts demoState.calls = .success 40 ∧
      demoState.attempts (demoState.calls + 1) = .success 41 ∧
      (3 : Int) < effTtl demoState "markets" ∧
      effTtl demoState "markets" ≤ (10 : Int)) ∧
    CacheReadSpec "markets" "q" demoState 40 41 3 10 :=
  ⟨⟨by decide, by decide, by decide, by decide, by decide, by decide⟩,
    C8_cached_reads "markets" "q" demoState 40 41 3 10 (by decide) (by decide)
      (by decide) (by decide) (by decide) (by decide)⟩

end SketchyBot
